import Mathlib

/-!
Verification development for the trading-bot recorder / moving-average
strategy / backtester (`src/modules/recorder.py`, `src/modules/ma_strategy.py`,
`src/modules/backtester.py`).

Conventions of the embedding:
* Timestamps are epoch seconds (`Nat`); the recorder only ever stores
  minute-aligned instants, and "minute alignment" is truncation to a
  multiple of 60.
* Prices are rationals (`ℚ`).  The on-disk 2-decimal rendering and float
  rounding are representation details no claim depends on, so prices are
  carried through unchanged.
* Operations that raise in Python (IndexError on `[-1]` of an empty list,
  ZeroDivisionError) are modelled with `Option`, `none` standing for the
  raised exception.
* pandas `sort_values('timestamp')` (default `kind='quicksort'`) is
  documented as *not* stable: its contract is only that the output is some
  timestamp-sorted permutation of the input, captured by the relation
  `IsSortValues`; the relative order of equal timestamps is unspecified.
  The deterministic `sortByTs` is one admissible implementation (a stable
  insertion sort), used directly where tie order is irrelevant.
  `drop_duplicates(subset=['timestamp'], keep='last')` — which in the source
  always runs on an already sorted frame — keeps the last element of each
  adjacent run of equal timestamps.
-/

namespace TradingBot

/-- One stored `(timestamp, price)` row of the recorder's CSV series. -/
structure Sample where
  ts : Nat
  price : ℚ
deriving DecidableEq, Repr

/-- Insertion step of the deterministic timestamp sort: place `a` before the
first element whose timestamp is `≥ a.ts`; ties keep their original relative
order, making this particular sort stable. -/
def insertTs (a : Sample) : List Sample → List Sample
  | [] => [a]
  | b :: l => if a.ts ≤ b.ts then a :: b :: l else b :: insertTs a l

/-- One admissible implementation of `df.sort_values('timestamp')`: a stable
insertion sort.  The source's default `kind='quicksort'` guarantees only a
timestamp-sorted permutation (see `IsSortValues`), not this tie order. -/
def sortByTs : List Sample → List Sample
  | [] => []
  | a :: l => insertTs a (sortByTs l)

/-- Source `df.drop_duplicates(subset=['timestamp'], keep='last')` as used by the
recorder: it always runs right after `sort_values('timestamp')`, so duplicate
timestamps form adjacent runs and `keep='last'` keeps the last element of
each run. -/
def dedupKeepLast : List Sample → List Sample
  | [] => []
  | [a] => [a]
  | a :: b :: l =>
      if a.ts = b.ts then dedupKeepLast (b :: l) else a :: dedupKeepLast (b :: l)

/-- The merge-write of `Recorder.save_price` / `Recorder.save_recovered_data`
(concat existing/new, sort by timestamp, drop duplicate timestamps keeping
the positionally last row) computed with the stable `sortByTs`: the
stable-tie-order special case of the relation `IsMergeWrite`, which admits
every tie order the unstable default sort may produce. -/
def seriesAppend (existing new : List Sample) : List Sample :=
  dedupKeepLast (sortByTs (existing ++ new))

/-- All samples of `l` carrying timestamp `t`, in storage order. -/
def filterTs (t : Nat) (l : List Sample) : List Sample :=
  l.filter (fun s => s.ts = t)

theorem filterTs_nil (t : Nat) : filterTs t [] = [] := rfl

theorem filterTs_cons (t : Nat) (a : Sample) (l : List Sample) :
    filterTs t (a :: l) = if a.ts = t then a :: filterTs t l else filterTs t l := by
  by_cases h : a.ts = t <;> simp [filterTs, h]

theorem filterTs_append (t : Nat) (l₁ l₂ : List Sample) :
    filterTs t (l₁ ++ l₂) = filterTs t l₁ ++ filterTs t l₂ := by
  simp [filterTs, List.filter_append]

theorem filterTs_eq_nil {t : Nat} {l : List Sample} (h : ∀ x ∈ l, x.ts ≠ t) :
    filterTs t l = [] := by
  simpa [filterTs] using h

theorem filterTs_insertTs (t : Nat) (a : Sample) (l : List Sample) :
    filterTs t (insertTs a l) =
      if a.ts = t then a :: filterTs t l else filterTs t l := by
  induction l with
  | nil => by_cases hat : a.ts = t <;> simp [insertTs, filterTs_cons, filterTs_nil, hat]
  | cons b l ih =>
      by_cases hab : a.ts ≤ b.ts
      · simp [insertTs, hab, filterTs_cons]
      · have hba : b.ts < a.ts := Nat.lt_of_not_le hab
        rw [insertTs, if_neg hab]
        by_cases hat : a.ts = t
        · have hbt : b.ts ≠ t := by omega
          simp [filterTs_cons, ih, hat, hbt]
        · simp [filterTs_cons, ih, hat]

theorem filterTs_sortByTs (t : Nat) (l : List Sample) :
    filterTs t (sortByTs l) = filterTs t l := by
  induction l with
  | nil => rfl
  | cons a l ih => rw [sortByTs, filterTs_insertTs, filterTs_cons, ih]

theorem mem_insertTs {x a : Sample} {l : List Sample} :
    x ∈ insertTs a l ↔ x = a ∨ x ∈ l := by
  induction l with
  | nil => simp [insertTs]
  | cons b l ih =>
      by_cases hab : a.ts ≤ b.ts
      · simp [insertTs, hab]
      · simp [insertTs, hab, ih]
        tauto

theorem pairwise_insertTs {a : Sample} {l : List Sample}
    (h : l.Pairwise (fun x y => x.ts ≤ y.ts)) :
    (insertTs a l).Pairwise (fun x y => x.ts ≤ y.ts) := by
  induction l with
  | nil => simp [insertTs]
  | cons b l ih =>
      rcases List.pairwise_cons.1 h with ⟨hb, hl⟩
      by_cases hab : a.ts ≤ b.ts
      · rw [insertTs, if_pos hab]
        refine List.pairwise_cons.2 ⟨?_, h⟩
        intro x hx
        rcases List.mem_cons.1 hx with rfl | hx
        · exact hab
        · exact le_trans hab (hb x hx)
      · have hba : b.ts ≤ a.ts := le_of_lt (Nat.lt_of_not_le hab)
        rw [insertTs, if_neg hab]
        refine List.pairwise_cons.2 ⟨?_, ih hl⟩
        intro x hx
        rcases mem_insertTs.1 hx with rfl | hx
        · exact hba
        · exact hb x hx

theorem pairwise_sortByTs (l : List Sample) :
    (sortByTs l).Pairwise (fun x y => x.ts ≤ y.ts) := by
  induction l with
  | nil => simp [sortByTs]
  | cons a l ih => exact pairwise_insertTs ih

theorem mem_dedupKeepLast : ∀ {l : List Sample} {x : Sample},
    x ∈ dedupKeepLast l → x ∈ l
  | [], x, h => by simp [dedupKeepLast] at h
  | [a], x, h => by simp only [dedupKeepLast] at h; exact h
  | a :: b :: l, x, h => by
      by_cases hab : a.ts = b.ts
      · rw [dedupKeepLast, if_pos hab] at h
        exact List.mem_cons_of_mem a (mem_dedupKeepLast h)
      · rw [dedupKeepLast, if_neg hab] at h
        rcases List.mem_cons.1 h with rfl | h
        · exact List.mem_cons_self _ _
        · exact List.mem_cons_of_mem a (mem_dedupKeepLast h)

theorem pairwise_lt_dedupKeepLast : ∀ {l : List Sample},
    l.Pairwise (fun x y => x.ts ≤ y.ts) →
    (dedupKeepLast l).Pairwise (fun x y => x.ts < y.ts)
  | [], _ => by simp [dedupKeepLast]
  | [a], _ => by simp [dedupKeepLast]
  | a :: b :: l, h => by
      rcases List.pairwise_cons.1 h with ⟨ha, h1⟩
      by_cases hab : a.ts = b.ts
      · rw [dedupKeepLast, if_pos hab]
        exact pairwise_lt_dedupKeepLast h1
      · rw [dedupKeepLast, if_neg hab]
        refine List.pairwise_cons.2 ⟨?_, pairwise_lt_dedupKeepLast h1⟩
        intro x hx
        have hxmem : x ∈ b :: l := mem_dedupKeepLast hx
        have hab' : a.ts < b.ts :=
          lt_of_le_of_ne (ha b (List.mem_cons_self b l)) hab
        rcases List.mem_cons.1 hxmem with rfl | hx'
        · exact hab'
        · have hbx : b.ts ≤ x.ts := (List.pairwise_cons.1 h1).1 x hx'
          omega

theorem filterTs_dedupKeepLast : ∀ {l : List Sample},
    l.Pairwise (fun x y => x.ts ≤ y.ts) → ∀ t,
    filterTs t (dedupKeepLast l) = ((filterTs t l).getLast?).toList
  | [], _, t => by simp [dedupKeepLast, filterTs_nil]
  | [a], _, t => by
      by_cases hat : a.ts = t <;>
        simp [dedupKeepLast, filterTs_cons, filterTs_nil, hat]
  | a :: b :: l, h, t => by
      rcases List.pairwise_cons.1 h with ⟨ha, h1⟩
      by_cases hab : a.ts = b.ts
      · rw [dedupKeepLast, if_pos hab, filterTs_dedupKeepLast h1 t]
        by_cases hat : a.ts = t
        · have hbt : b.ts = t := by omega
          have hfb : filterTs t (b :: l) = b :: filterTs t l := by
            rw [filterTs_cons, if_pos hbt]
          have hfa : filterTs t (a :: b :: l) = a :: b :: filterTs t l := by
            rw [filterTs_cons, if_pos hat, hfb]
          rw [hfa, hfb, List.getLast?_cons_cons]
        · have hfa : filterTs t (a :: b :: l) = filterTs t (b :: l) := by
            rw [filterTs_cons, if_neg hat]
          rw [hfa]
      · rw [dedupKeepLast, if_neg hab]
        have hab' : a.ts < b.ts :=
          lt_of_le_of_ne (ha b (List.mem_cons_self b l)) hab
        by_cases hat : a.ts = t
        · have htail : filterTs t (b :: l) = [] := by
            refine filterTs_eq_nil ?_
            intro x hx
            rcases List.mem_cons.1 hx with rfl | hx'
            · omega
            · have hbx : b.ts ≤ x.ts := (List.pairwise_cons.1 h1).1 x hx'
              omega
          have hdtail : filterTs t (dedupKeepLast (b :: l)) = [] := by
            rw [filterTs_dedupKeepLast h1 t, htail]
            rfl
          have hL : filterTs t (a :: dedupKeepLast (b :: l)) = [a] := by
            rw [filterTs_cons, if_pos hat, hdtail]
          have hR : filterTs t (a :: b :: l) = [a] := by
            rw [filterTs_cons, if_pos hat, htail]
          rw [hL, hR]
          rfl
        · have hL : filterTs t (a :: dedupKeepLast (b :: l))
              = filterTs t (dedupKeepLast (b :: l)) := by
            rw [filterTs_cons, if_neg hat]
          have hR : filterTs t (a :: b :: l) = filterTs t (b :: l) := by
            rw [filterTs_cons, if_neg hat]
          rw [hL, hR, filterTs_dedupKeepLast h1 t]

theorem filterTs_seriesAppend (existing new : List Sample) (t : Nat) :
    filterTs t (seriesAppend existing new)
      = ((filterTs t (existing ++ new)).getLast?).toList := by
  rw [seriesAppend, filterTs_dedupKeepLast (pairwise_sortByTs _) t,
    filterTs_sortByTs]

theorem pairwise_lt_seriesAppend (existing new : List Sample) :
    (seriesAppend existing new).Pairwise (fun x y => x.ts < y.ts) :=
  pairwise_lt_dedupKeepLast (pairwise_sortByTs _)

theorem strictSorted_ext : ∀ {l₁ l₂ : List Sample},
    l₁.Pairwise (fun x y => x.ts < y.ts) →
    l₂.Pairwise (fun x y => x.ts < y.ts) →
    (∀ t, filterTs t l₁ = filterTs t l₂) → l₁ = l₂
  | [], [], _, _, _ => rfl
  | [], b :: l₂, _, _, h => by
      have hb := h b.ts
      rw [filterTs_nil, filterTs_cons, if_pos rfl] at hb
      exact absurd hb (by simp)
  | a :: l₁, [], _, _, h => by
      have ha := h a.ts
      rw [filterTs_nil, filterTs_cons, if_pos rfl] at ha
      exact absurd ha (by simp)
  | a :: l₁, b :: l₂, h₁, h₂, h => by
      rcases List.pairwise_cons.1 h₁ with ⟨ha, h₁t⟩
      rcases List.pairwise_cons.1 h₂ with ⟨hb, h₂t⟩
      have hfa : filterTs a.ts l₁ = [] :=
        filterTs_eq_nil (fun x hx => by have := ha x hx; omega)
      have hfb : filterTs b.ts l₂ = [] :=
        filterTs_eq_nil (fun x hx => by have := hb x hx; omega)
      have hla : filterTs a.ts (a :: l₁) = [a] := by
        rw [filterTs_cons, if_pos rfl, hfa]
      have hab : a = b := by
        have h1 := h a.ts
        rw [hla] at h1
        by_cases hba : b.ts = a.ts
        · have hfb2 : filterTs a.ts l₂ = [] :=
            filterTs_eq_nil (fun x hx => by have := hb x hx; omega)
          rw [filterTs_cons, if_pos hba, hfb2] at h1
          simpa using h1
        · rw [filterTs_cons, if_neg hba] at h1
          have hmem : a ∈ l₂ := by
            have ha2 : a ∈ filterTs a.ts l₂ := by rw [← h1]; simp
            exact (List.mem_filter.1 ha2).1
          have h2 := h b.ts
          have hl2 : filterTs b.ts (a :: l₁) = filterTs b.ts l₁ := by
            rw [filterTs_cons, if_neg (fun hc => hba hc.symm)]
          have hr2 : filterTs b.ts (b :: l₂) = [b] := by
            rw [filterTs_cons, if_pos rfl, hfb]
          rw [hl2, hr2] at h2
          have hmem2 : b ∈ l₁ := by
            have hb2 : b ∈ filterTs b.ts l₁ := by rw [h2]; simp
            exact (List.mem_filter.1 hb2).1
          have hlt : a.ts < b.ts := ha b hmem2
          have hlt2 : b.ts < a.ts := hb a hmem
          omega
      subst hab
      have htail : ∀ t, filterTs t l₁ = filterTs t l₂ := by
        intro t
        by_cases hat : a.ts = t
        · subst hat
          rw [hfa, filterTs_eq_nil (fun x hx => by have := hb x hx; omega)]
        · have ht := h t
          have hc1 : filterTs t (a :: l₁) = filterTs t l₁ := by
            rw [filterTs_cons, if_neg hat]
          have hc2 : filterTs t (a :: l₂) = filterTs t l₂ := by
            rw [filterTs_cons, if_neg hat]
          rwa [hc1, hc2] at ht
      rw [strictSorted_ext h₁t h₂t htail]

/-! ## The documented (unstable) sort contract

The recorder sorts with pandas' default `kind='quicksort'`, which is
documented as not stable: the only guarantee is a timestamp-sorted
permutation of the input.  The relations below capture exactly that
contract; `sortByTs` is one admissible implementation. -/

theorem perm_insertTs (a : Sample) : ∀ l : List Sample,
    (insertTs a l).Perm (a :: l)
  | [] => List.Perm.refl _
  | b :: l => by
      by_cases hab : a.ts ≤ b.ts
      · rw [insertTs, if_pos hab]
      · rw [insertTs, if_neg hab]
        exact List.Perm.trans (List.Perm.cons b (perm_insertTs a l))
          (List.Perm.swap a b l)

theorem perm_sortByTs : ∀ l : List Sample, (sortByTs l).Perm l
  | [] => List.Perm.refl _
  | a :: l =>
      List.Perm.trans (perm_insertTs a (sortByTs l))
        (List.Perm.cons a (perm_sortByTs l))

/-- The documented contract of `df.sort_values('timestamp')` with the default
`kind='quicksort'`: the output is *some* permutation of the input ascending
in timestamp.  The algorithm is documented as not stable, so the relative
order of rows with equal timestamps is unspecified. -/
def IsSortValues (l out : List Sample) : Prop :=
  l.Perm out ∧ out.Pairwise (fun x y => x.ts ≤ y.ts)

/-- An admissible outcome of the recorder's merge-write
(`Recorder.save_price` / `Recorder.save_recovered_data`): concat existing
and new, sort by timestamp under the unstable-sort contract, drop duplicate
timestamps keeping the positionally last row. -/
def IsMergeWrite (existing new out : List Sample) : Prop :=
  ∃ sorted, IsSortValues (existing ++ new) sorted ∧ out = dedupKeepLast sorted

theorem sortValues_sortByTs (l : List Sample) : IsSortValues l (sortByTs l) :=
  ⟨(perm_sortByTs l).symm, pairwise_sortByTs l⟩

theorem mergeWrite_seriesAppend (existing new : List Sample) :
    IsMergeWrite existing new (seriesAppend existing new) :=
  ⟨sortByTs (existing ++ new), sortValues_sortByTs _, rfl⟩

theorem mem_map_ts_iff_filterTs (t : Nat) (l : List Sample) :
    t ∈ l.map Sample.ts ↔ filterTs t l ≠ [] := by
  constructor
  · intro h hc
    rcases List.mem_map.1 h with ⟨x, hx, hxt⟩
    have hxf : x ∈ filterTs t l := by
      refine List.mem_filter.2 ⟨hx, ?_⟩
      simp [hxt]
    rw [hc] at hxf
    simp at hxf
  · intro h
    rcases List.exists_mem_of_ne_nil _ h with ⟨x, hx⟩
    have hxf := List.mem_filter.1 hx
    exact List.mem_map.2 ⟨x, hxf.1, by simpa using hxf.2⟩

theorem mergeWrite_pairwise_lt {existing new out : List Sample}
    (h : IsMergeWrite existing new out) :
    out.Pairwise (fun x y => x.ts < y.ts) := by
  obtain ⟨sorted, ⟨_, hsorted⟩, rfl⟩ := h
  exact pairwise_lt_dedupKeepLast hsorted

theorem mergeWrite_mem_ts {existing new out : List Sample}
    (h : IsMergeWrite existing new out) (t : Nat) :
    t ∈ out.map Sample.ts
      ↔ (t ∈ existing.map Sample.ts ∨ t ∈ new.map Sample.ts) := by
  obtain ⟨sorted, ⟨hperm, hsorted⟩, rfl⟩ := h
  rw [mem_map_ts_iff_filterTs, filterTs_dedupKeepLast hsorted]
  have htoList : ((filterTs t sorted).getLast?).toList ≠ []
      ↔ filterTs t sorted ≠ [] := by
    cases hg : (filterTs t sorted).getLast? with
    | none => simp [List.getLast?_eq_none_iff.1 hg]
    | some x =>
        have : filterTs t sorted ≠ [] := by
          intro hc
          rw [hc] at hg
          simp at hg
        simp [Option.toList, this]
  rw [htoList, ← mem_map_ts_iff_filterTs]
  have hpm : t ∈ (existing ++ new).map Sample.ts ↔ t ∈ sorted.map Sample.ts :=
    (hperm.map Sample.ts).mem_iff
  rw [← hpm, List.map_append, List.mem_append]

theorem strictSortedNat_ext : ∀ {l₁ l₂ : List Nat},
    l₁.Pairwise (· < ·) → l₂.Pairwise (· < ·) →
    (∀ t, t ∈ l₁ ↔ t ∈ l₂) → l₁ = l₂
  | [], [], _, _, _ => rfl
  | [], b :: l₂, _, _, h => by
      have hb := (h b).2 (List.mem_cons_self b l₂)
      simp at hb
  | a :: l₁, [], _, _, h => by
      have ha := (h a).1 (List.mem_cons_self a l₁)
      simp at ha
  | a :: l₁, b :: l₂, h₁, h₂, h => by
      rcases List.pairwise_cons.1 h₁ with ⟨ha, h₁t⟩
      rcases List.pairwise_cons.1 h₂ with ⟨hb, h₂t⟩
      have hab : a = b := by
        have h1 := (h a).1 (List.mem_cons_self a l₁)
        have h2 := (h b).2 (List.mem_cons_self b l₂)
        rcases List.mem_cons.1 h1 with h1a | h1a
        · exact h1a
        · rcases List.mem_cons.1 h2 with h2a | h2a
          · exact h2a.symm
          · have hba := hb a h1a
            have hab2 := ha b h2a
            omega
      subst hab
      have htail : ∀ t, t ∈ l₁ ↔ t ∈ l₂ := by
        intro t
        by_cases hat : t = a
        · subst hat
          constructor
          · intro hmem
            exact absurd (ha t hmem) (lt_irrefl t)
          · intro hmem
            exact absurd (hb t hmem) (lt_irrefl t)
        · have ht := h t
          rw [List.mem_cons, List.mem_cons] at ht
          constructor
          · intro hmem
            rcases ht.1 (Or.inr hmem) with h2a | h2a
            · exact absurd h2a hat
            · exact h2a
          · intro hmem
            rcases ht.2 (Or.inr hmem) with h2a | h2a
            · exact absurd h2a hat
            · exact h2a
      rw [strictSortedNat_ext h₁t h₂t htail]

/-- Last-write-wins under the stable tie order: for the stable-sort
implementation `seriesAppend`, a timestamp supplied in the batch is stored
once with the price of the last sample carrying it in `existing ++ new`. -/
theorem seriesAppend_lastWriteWins
    (existing new : List Sample) (t : Nat) (ht : t ∈ new.map Sample.ts) :
    ∃ s : Sample, s.ts = t ∧
      filterTs t (seriesAppend existing new) = [s] ∧
      (filterTs t (existing ++ new)).getLast? = some s := by
  rcases List.mem_map.1 ht with ⟨x, hx, hxt⟩
  have hxf : x ∈ filterTs t (existing ++ new) := by
    refine List.mem_filter.2 ⟨List.mem_append_right _ hx, ?_⟩
    simp [hxt]
  have hne : filterTs t (existing ++ new) ≠ [] := by
    intro hcon
    rw [hcon] at hxf
    simp at hxf
  obtain ⟨s, hs⟩ : ∃ s, (filterTs t (existing ++ new)).getLast? = some s := by
    cases hg : (filterTs t (existing ++ new)).getLast? with
    | none => exact absurd (List.getLast?_eq_none_iff.1 hg) hne
    | some s => exact ⟨s, rfl⟩
  refine ⟨s, ?_, ?_, hs⟩
  · have hmem : s ∈ filterTs t (existing ++ new) :=
      List.mem_of_mem_getLast? hs
    have := (List.mem_filter.1 hmem).2
    simpa using this
  · rw [filterTs_seriesAppend, hs]
    rfl

/-- C1 (amended): every admissible merge-write output has strictly
increasing, hence unique, timestamps; a timestamp supplied in the batch is
stored exactly once, with the price of one of the samples supplied for it
(which one survives depends on the unspecified tie order of the unstable
default sort); and under the stable tie order — equal-timestamp rows keeping
their supplied order, as computed by `seriesAppend` — the survivor is
exactly the most recently supplied value. -/
theorem mergeWrite_strictMono_storedPrice (existing new out : List Sample)
    (hout : IsMergeWrite existing new out) (t : Nat)
    (ht : t ∈ new.map Sample.ts) :
    out.Pairwise (fun x y => x.ts < y.ts) ∧
    (∃ s : Sample, s.ts = t ∧ filterTs t out = [s] ∧ s ∈ existing ++ new) ∧
    (IsMergeWrite existing new (seriesAppend existing new) ∧
      ∃ s : Sample, s.ts = t ∧
        filterTs t (seriesAppend existing new) = [s] ∧
        (filterTs t (existing ++ new)).getLast? = some s) := by
  refine ⟨mergeWrite_pairwise_lt hout, ?_,
    mergeWrite_seriesAppend existing new,
    seriesAppend_lastWriteWins existing new t ht⟩
  obtain ⟨sorted, ⟨hperm, hsorted⟩, rfl⟩ := hout
  have hpm : t ∈ (existing ++ new).map Sample.ts ↔ t ∈ sorted.map Sample.ts :=
    (hperm.map Sample.ts).mem_iff
  have htm : t ∈ sorted.map Sample.ts := by
    refine hpm.1 ?_
    rw [List.map_append, List.mem_append]
    exact Or.inr ht
  have hne : filterTs t sorted ≠ [] := (mem_map_ts_iff_filterTs t sorted).1 htm
  obtain ⟨s, hs⟩ : ∃ s, (filterTs t sorted).getLast? = some s := by
    cases hg : (filterTs t sorted).getLast? with
    | none => exact absurd (List.getLast?_eq_none_iff.1 hg) hne
    | some s => exact ⟨s, rfl⟩
  have hsmem : s ∈ filterTs t sorted := List.mem_of_mem_getLast? hs
  have hsfil := List.mem_filter.1 hsmem
  refine ⟨s, by simpa using hsfil.2, ?_, hperm.symm.mem_iff.1 hsfil.1⟩
  rw [filterTs_dedupKeepLast hsorted, hs]
  rfl

/-- Witness for C1 (amended): the store holds a sample at timestamp 0, the
batch resupplies timestamp 0, and the stable-sort merge is the admissible
outcome considered. -/
theorem mergeWrite_strictMono_storedPrice_witness :
    (IsMergeWrite [⟨0, 1⟩] [⟨0, 2⟩, ⟨60, 3⟩]
        (seriesAppend [⟨0, 1⟩] [⟨0, 2⟩, ⟨60, 3⟩]) ∧
      (0 : Nat) ∈ ([⟨0, 2⟩, ⟨60, 3⟩] : List Sample).map Sample.ts) ∧
    ((seriesAppend [⟨0, 1⟩] [⟨0, 2⟩, ⟨60, 3⟩]).Pairwise
        (fun x y => x.ts < y.ts) ∧
      (∃ s : Sample, s.ts = 0 ∧
        filterTs 0 (seriesAppend [⟨0, 1⟩] [⟨0, 2⟩, ⟨60, 3⟩]) = [s] ∧
        s ∈ [⟨0, 1⟩] ++ [⟨0, 2⟩, ⟨60, 3⟩]) ∧
      (IsMergeWrite [⟨0, 1⟩] [⟨0, 2⟩, ⟨60, 3⟩]
          (seriesAppend [⟨0, 1⟩] [⟨0, 2⟩, ⟨60, 3⟩]) ∧
        ∃ s : Sample, s.ts = 0 ∧
          filterTs 0 (seriesAppend [⟨0, 1⟩] [⟨0, 2⟩, ⟨60, 3⟩]) = [s] ∧
          (filterTs 0 ([⟨0, 1⟩] ++ [⟨0, 2⟩, ⟨60, 3⟩])).getLast? = some s)) :=
  ⟨⟨mergeWrite_seriesAppend _ _, by decide⟩,
    mergeWrite_strictMono_storedPrice [⟨0, 1⟩] [⟨0, 2⟩, ⟨60, 3⟩]
      (seriesAppend [⟨0, 1⟩] [⟨0, 2⟩, ⟨60, 3⟩])
      (mergeWrite_seriesAppend _ _) 0 (by decide)⟩

/-- C1 counterexample: with stored `[(0, 1)]` and batch `[(0, 2)]`, the
timestamp-sorted permutation `[(0, 2), (0, 1)]` is an admissible output of
the unstable default sort, after which `keep='last'` stores price 1 — not
the most recently supplied price 2 (the last occurrence in
`existing ++ new`).  Last-write-wins is not forced by the program's
documented sort contract. -/
theorem lastWriteWins_not_forced :
    IsMergeWrite [⟨0, 1⟩] [⟨0, 2⟩] [⟨0, 1⟩] ∧
    (filterTs 0 ([⟨0, 1⟩] ++ [⟨0, 2⟩])).getLast? = some ⟨0, 2⟩ ∧
    filterTs 0 [⟨0, 1⟩] ≠ [⟨0, 2⟩] := by
  have hperm : (([⟨0, 1⟩] ++ [⟨0, 2⟩] : List Sample)).Perm [⟨0, 2⟩, ⟨0, 1⟩] := by
    rw [show (([⟨0, 1⟩] ++ [⟨0, 2⟩] : List Sample)) = [⟨0, 1⟩, ⟨0, 2⟩] from rfl]
    exact List.Perm.swap _ _ _
  refine ⟨⟨[⟨0, 2⟩, ⟨0, 1⟩], ⟨hperm, ?_⟩, rfl⟩, rfl, ?_⟩
  · simp
  · intro hc
    have := List.head_eq_of_cons_eq hc
    rw [Sample.mk.injEq] at this
    norm_num at this

/-- The merge-write computed with the stable `sortByTs` is idempotent. -/
theorem seriesAppend_idempotent_stable (existing new : List Sample) :
    seriesAppend (seriesAppend existing new) new = seriesAppend existing new := by
  apply strictSorted_ext (pairwise_lt_seriesAppend _ _) (pairwise_lt_seriesAppend _ _)
  intro t
  rw [filterTs_seriesAppend, filterTs_append, filterTs_seriesAppend,
      filterTs_append]
  generalize filterTs t existing = u
  generalize filterTs t new = v
  cases v with
  | nil =>
      simp only [List.append_nil]
      cases hu : u.getLast? <;> simp
  | cons v₀ v' =>
      rw [List.getLast?_append_of_ne_nil _ (List.cons_ne_nil v₀ v'),
        List.getLast?_append_of_ne_nil _ (List.cons_ne_nil v₀ v')]

/-- C9 (amended): appending the same batch twice is idempotent for the
stable-tie-order implementation (`seriesAppend`); under the unstable default
sort's contract, what every pair of admissible consecutive appends
guarantees is that the second append leaves the stored *timestamp sequence*
unchanged (which row of an equal-timestamp tie survives may differ — see the
counterexample). -/
theorem append_idempotent_upto_tie_order (existing new S₁ S₂ : List Sample)
    (h1 : IsMergeWrite existing new S₁) (h2 : IsMergeWrite S₁ new S₂) :
    seriesAppend (seriesAppend existing new) new = seriesAppend existing new ∧
    S₂.map Sample.ts = S₁.map Sample.ts := by
  refine ⟨seriesAppend_idempotent_stable existing new, ?_⟩
  have hp1 : (S₁.map Sample.ts).Pairwise (· < ·) :=
    List.pairwise_map.2 (mergeWrite_pairwise_lt h1)
  have hp2 : (S₂.map Sample.ts).Pairwise (· < ·) :=
    List.pairwise_map.2 (mergeWrite_pairwise_lt h2)
  refine strictSortedNat_ext hp2 hp1 ?_
  intro t
  rw [mergeWrite_mem_ts h2 t, mergeWrite_mem_ts h1 t]
  tauto

/-- Witness for C9 (amended) on a non-overlapping batch: store `[(0, 1)]`,
batch `[(60, 2)]`, both appends taken as the stable-sort outcomes. -/
theorem append_idempotent_upto_tie_order_witness :
    (IsMergeWrite [⟨0, 1⟩] [⟨60, 2⟩] (seriesAppend [⟨0, 1⟩] [⟨60, 2⟩]) ∧
      IsMergeWrite (seriesAppend [⟨0, 1⟩] [⟨60, 2⟩]) [⟨60, 2⟩]
        (seriesAppend (seriesAppend [⟨0, 1⟩] [⟨60, 2⟩]) [⟨60, 2⟩])) ∧
    (seriesAppend (seriesAppend [⟨0, 1⟩] [⟨60, 2⟩]) [⟨60, 2⟩]
        = seriesAppend [⟨0, 1⟩] [⟨60, 2⟩] ∧
      (seriesAppend (seriesAppend [⟨0, 1⟩] [⟨60, 2⟩]) [⟨60, 2⟩]).map Sample.ts
        = (seriesAppend [⟨0, 1⟩] [⟨60, 2⟩]).map Sample.ts) :=
  ⟨⟨mergeWrite_seriesAppend _ _, mergeWrite_seriesAppend _ _⟩,
    append_idempotent_upto_tie_order [⟨0, 1⟩] [⟨60, 2⟩]
      (seriesAppend [⟨0, 1⟩] [⟨60, 2⟩])
      (seriesAppend (seriesAppend [⟨0, 1⟩] [⟨60, 2⟩]) [⟨60, 2⟩])
      (mergeWrite_seriesAppend _ _) (mergeWrite_seriesAppend _ _)⟩

/-- C9 counterexample: from store `[(0, 1)]` and batch `[(0, 2)]` the
unstable sort admits both `[(0, 1)]` and `[(0, 2)]` as merge results; a
first append may store price 1, and appending the same batch to that store
again may then store price 2 — so append-twice need not equal append-once
under the program's documented sort contract. -/
theorem append_idempotence_not_forced :
    IsMergeWrite [⟨0, 1⟩] [⟨0, 2⟩] [⟨0, 1⟩] ∧
    IsMergeWrite [⟨0, 1⟩] [⟨0, 2⟩] [⟨0, 2⟩] ∧
    ([⟨0, 1⟩] : List Sample) ≠ [⟨0, 2⟩] := by
  have hperm : (([⟨0, 1⟩] ++ [⟨0, 2⟩] : List Sample)).Perm [⟨0, 2⟩, ⟨0, 1⟩] := by
    rw [show (([⟨0, 1⟩] ++ [⟨0, 2⟩] : List Sample)) = [⟨0, 1⟩, ⟨0, 2⟩] from rfl]
    exact List.Perm.swap _ _ _
  refine ⟨⟨[⟨0, 2⟩, ⟨0, 1⟩], ⟨hperm, by simp⟩, rfl⟩,
    ⟨[⟨0, 1⟩, ⟨0, 2⟩], ⟨List.Perm.refl _, by simp⟩, rfl⟩, ?_⟩
  intro hc
  have := List.head_eq_of_cons_eq hc
  rw [Sample.mk.injEq] at this
  norm_num at this

/-! ## Gap detection (`Recorder.detect_missing_periods`) -/

/-- A detected missing period: `start` is the last sample before the gap,
`stop` the first sample after it (the source dict's `'start'`/`'end'`). -/
structure GapPeriod where
  start : Nat
  stop : Nat
deriving DecidableEq, Repr

/-- The vectorized scan of `detect_missing_periods` on the sorted series:
consecutive timestamp differences are compared against
`expected_interval * 1.5`; over integer-second timestamps,
`diff > 1.5 * interval` is exactly `2 * diff > 3 * interval`. -/
def gapsOfSorted (interval : Nat) : List Sample → List GapPeriod
  | a :: b :: rest =>
      if 3 * interval < 2 * (b.ts - a.ts) then
        ⟨a.ts, b.ts⟩ :: gapsOfSorted interval (b :: rest)
      else gapsOfSorted interval (b :: rest)
  | _ => []

/-- Source `Recorder.detect_missing_periods`: sort by timestamp, return `[]` for
fewer than two rows, else scan consecutive pairs for over-threshold
intervals. -/
def detect_missing_periods (interval : Nat) (l : List Sample) : List GapPeriod :=
  if (sortByTs l).length < 2 then [] else gapsOfSorted interval (sortByTs l)

/-- The consecutive pairs of a list, in order (the `diff().shift(-1)`
index pairs of the source). -/
def consPairs : List Sample → List (Sample × Sample)
  | a :: b :: rest => (a, b) :: consPairs (b :: rest)
  | _ => []

theorem consPairs_eq_nil : ∀ {l : List Sample}, l.length < 2 → consPairs l = []
  | [], _ => rfl
  | [_], _ => rfl
  | _ :: _ :: _, h => by simp at h; omega

theorem gapsOfSorted_eq_filter (interval : Nat) : ∀ l : List Sample,
    gapsOfSorted interval l
      = ((consPairs l).filter
          (fun p => 3 * interval < 2 * (p.2.ts - p.1.ts))).map
          (fun p => ⟨p.1.ts, p.2.ts⟩)
  | [] => rfl
  | [_] => rfl
  | a :: b :: rest => by
      by_cases hg : 3 * interval < 2 * (b.ts - a.ts)
      · rw [gapsOfSorted, if_pos hg, consPairs,
          List.filter_cons_of_pos (by simpa using hg), List.map_cons,
          gapsOfSorted_eq_filter interval (b :: rest)]
      · rw [gapsOfSorted, if_neg hg, consPairs,
          List.filter_cons_of_neg (by simpa using hg),
          gapsOfSorted_eq_filter interval (b :: rest)]

theorem gapsOfSorted_start_mem (interval : Nat) :
    ∀ {l : List Sample} {g : GapPeriod},
      g ∈ gapsOfSorted interval l → ∃ s ∈ l, g.start = s.ts
  | [], g, h => by simp [gapsOfSorted] at h
  | [a], g, h => by simp [gapsOfSorted] at h
  | a :: b :: rest, g, h => by
      by_cases hg : 3 * interval < 2 * (b.ts - a.ts)
      · rw [gapsOfSorted, if_pos hg] at h
        rcases List.mem_cons.1 h with rfl | h
        · exact ⟨a, List.mem_cons_self _ _, rfl⟩
        · rcases gapsOfSorted_start_mem interval h with ⟨s, hs, hgs⟩
          exact ⟨s, List.mem_cons_of_mem a hs, hgs⟩
      · rw [gapsOfSorted, if_neg hg] at h
        rcases gapsOfSorted_start_mem interval h with ⟨s, hs, hgs⟩
        exact ⟨s, List.mem_cons_of_mem a hs, hgs⟩

theorem pairwise_start_gapsOfSorted (interval : Nat) :
    ∀ {l : List Sample}, l.Pairwise (fun x y => x.ts ≤ y.ts) →
      ((gapsOfSorted interval l).map GapPeriod.start).Pairwise (· ≤ ·)
  | [], _ => by simp [gapsOfSorted]
  | [a], _ => by simp [gapsOfSorted]
  | a :: b :: rest, h => by
      rcases List.pairwise_cons.1 h with ⟨ha, h1⟩
      by_cases hg : 3 * interval < 2 * (b.ts - a.ts)
      · rw [gapsOfSorted, if_pos hg, List.map_cons]
        refine List.pairwise_cons.2 ⟨?_, pairwise_start_gapsOfSorted interval h1⟩
        intro x hx
        rcases List.mem_map.1 hx with ⟨g, hgmem, rfl⟩
        rcases gapsOfSorted_start_mem interval hgmem with ⟨s, hs, hgs⟩
        rw [hgs]
        exact ha s hs
      · rw [gapsOfSorted, if_neg hg]
        exact pairwise_start_gapsOfSorted interval h1

/-- C2: gap detection scans consecutive pairs of the sorted series and keeps
exactly the pairs whose interval exceeds `1.5 × expectedInterval`, in
chronological order; in particular samples at `T, T+1m, T+5m` with a 60 s
expected interval yield the single gap `(T+1m, T+5m)`. -/
theorem detect_missing_periods_spec (interval : Nat) (l : List Sample)
    (T : Nat) (p₁ p₂ p₃ : ℚ) :
    detect_missing_periods interval l
      = ((consPairs (sortByTs l)).filter
          (fun p => 3 * interval < 2 * (p.2.ts - p.1.ts))).map
          (fun p => ⟨p.1.ts, p.2.ts⟩) ∧
    ((detect_missing_periods interval l).map GapPeriod.start).Pairwise (· ≤ ·) ∧
    detect_missing_periods 60 [⟨T, p₁⟩, ⟨T + 60, p₂⟩, ⟨T + 300, p₃⟩]
      = [⟨T + 60, T + 300⟩] := by
  refine ⟨?_, ?_, ?_⟩
  · rw [detect_missing_periods]
    by_cases hlen : (sortByTs l).length < 2
    · rw [if_pos hlen, consPairs_eq_nil hlen]
      rfl
    · rw [if_neg hlen, gapsOfSorted_eq_filter]
  · rw [detect_missing_periods]
    by_cases hlen : (sortByTs l).length < 2
    · rw [if_pos hlen]
      simp
    · rw [if_neg hlen]
      exact pairwise_start_gapsOfSorted interval (pairwise_sortByTs l)
  · have h1 : T ≤ T + 60 := by omega
    have h2 : T + 60 ≤ T + 300 := by omega
    have e1 : sortByTs [⟨T, p₁⟩, ⟨T + 60, p₂⟩, ⟨T + 300, p₃⟩]
        = [⟨T, p₁⟩, ⟨T + 60, p₂⟩, ⟨T + 300, p₃⟩] := by
      rw [sortByTs, sortByTs, sortByTs, sortByTs, insertTs,
        insertTs, if_pos (show T + 60 ≤ T + 300 from h2), insertTs,
        if_pos (show T ≤ T + 60 from h1)]
    rw [detect_missing_periods, e1]
    rw [if_neg (by simp)]
    rw [gapsOfSorted, if_neg (by show ¬ 3 * 60 < 2 * ((T + 60) - T); omega),
      gapsOfSorted, if_pos (by show 3 * 60 < 2 * ((T + 300) - (T + 60)); omega)]
    rfl

/-! ## The recorder tick (`Recorder.save_price` / `get_last_timestamp`)

The store argument is the CSV file: `none` models a missing or unreadable
file, `some l` the parsed rows in file order.  `now` is the wall clock in
epoch seconds; the tick aligns it to the minute first
(`datetime.now(jst).replace(second=0, microsecond=0)`). -/

/-- Source `replace(second=0, microsecond=0)`: truncate an epoch-seconds instant to
the start of its minute. -/
def alignMinute (t : Nat) : Nat := 60 * (t / 60)

/-- Source `Recorder.get_last_timestamp`: the timestamp of the *last row* of the
CSV (`df['timestamp'].iloc[-1]`); when the file is missing, empty or
unreadable, the current minute `now` is returned instead. -/
def get_last_timestamp (now : Nat) (store : Option (List Sample)) : Nat :=
  match store with
  | none => now
  | some l =>
    match l.getLast? with
    | none => now
    | some s => s.ts

/-- Which branch of `save_price` a tick takes: the clock-skew guard
(`expected_next > now_ts`), the gap/backfill branch (`expected_next < now_ts`),
or the plain current-minute write. -/
inductive TickBranch
  | skew
  | gap
  | normal
deriving DecidableEq, Repr

/-- The branch decision of `Recorder.save_price`, with
`expected_next = get_last_timestamp() + 1 minute`. -/
def tickBranch (now : Nat) (store : Option (List Sample)) : TickBranch :=
  let expected := get_last_timestamp now store + 60
  if now < expected then .skew
  else if expected < now then .gap
  else .normal

/-- Aligning one historical row to the minute boundary
(`ts_jst = ts.astimezone(jst).replace(second=0, microsecond=0)`). -/
def alignRow (s : Sample) : Sample := ⟨alignMinute s.ts, s.price⟩

/-- The rows a `save_price` tick writes, `now` already minute-aligned:
on clock skew only the current-minute row; otherwise the backfill rows —
historical points aligned to the minute and kept only when strictly before
`now` — followed by the current-minute row from the live fetch. -/
def tickRows (now : Nat) (price : ℚ) (store : Option (List Sample))
    (hist : List Sample) : List Sample :=
  let expected := get_last_timestamp now store + 60
  if now < expected then [⟨now, price⟩]
  else
    (if expected < now then
      (hist.map alignRow).filter (fun r => r.ts < now)
    else []) ++ [⟨now, price⟩]

/-- One whole `Recorder.save_price` tick against store contents: build the
tick's rows and merge-write them over the existing series (a missing or
unreadable file behaves as an empty existing series). -/
def save_price (nowRaw : Nat) (price : ℚ) (store : Option (List Sample))
    (hist : List Sample) : List Sample :=
  let now := alignMinute nowRaw
  seriesAppend (store.getD []) (tickRows now price store hist)

theorem alignMinute_idem (t : Nat) : alignMinute (alignMinute t) = alignMinute t := by
  unfold alignMinute
  rw [Nat.mul_div_cancel_left _ (by norm_num : 0 < 60)]

/-- C3 counterexample: with a missing store and `now = 120`, the code's
`get_last_timestamp` returns `now` (not absent), so `expected_next =
now + 60 ≠ now` and the tick takes the clock-skew branch, contradicting the
claim that a first tick has `expected-next = now` and avoids the skew
branch. -/
theorem first_tick_claim_fails :
    get_last_timestamp 120 none + 60 ≠ 120 ∧
    tickBranch 120 none ≠ TickBranch.normal ∧
    tickBranch 120 none = TickBranch.skew := by
  decide

/-- C3 (amended): when no prior sample exists (missing/unreadable store or an
empty one), `get_last_timestamp` reports the current minute `now`, so
`expected_next = now + 1 min` exceeds `now` and the tick takes the clock-skew
guard: it writes exactly the current-minute sample, with no backfill, and the
store afterwards holds exactly that one row. -/
theorem first_tick_writes_current_minute (now : Nat) (price : ℚ)
    (hist : List Sample) (store : Option (List Sample))
    (h : store = none ∨ store = some []) :
    get_last_timestamp now store = now ∧
    tickBranch now store = TickBranch.skew ∧
    tickRows now price store hist = [⟨now, price⟩] ∧
    save_price now price store hist = [⟨alignMinute now, price⟩] := by
  have hlast : get_last_timestamp now store = now := by
    rcases h with rfl | rfl <;> rfl
  refine ⟨hlast, ?_, ?_, ?_⟩
  · rw [tickBranch]
    simp only [hlast]
    rw [if_pos (by omega)]
  · rw [tickRows]
    simp only [hlast]
    rw [if_pos (by omega)]
  · rw [save_price, tickRows]
    have hlast2 : get_last_timestamp (alignMinute now) store = alignMinute now := by
      rcases h with rfl | rfl <;> rfl
    simp only [hlast2]
    rw [if_pos (by omega)]
    rcases h with rfl | rfl <;> rfl

/-- Witness for C3 (amended) at `now = 120`, price 5, missing store. -/
theorem first_tick_writes_current_minute_witness :
    ((none : Option (List Sample)) = none ∨ (none : Option (List Sample)) = some []) ∧
    (get_last_timestamp 120 none = 120 ∧
      tickBranch 120 none = TickBranch.skew ∧
      tickRows 120 5 none [] = [⟨120, 5⟩] ∧
      save_price 120 5 none [] = [⟨alignMinute 120, 5⟩]) :=
  ⟨Or.inl rfl, first_tick_writes_current_minute 120 5 [] none (Or.inl rfl)⟩

/-- C6: in every tick's write batch the final row is the current-minute
sample from the live fetch, and every other row (the backfill from the
historical source) is minute-aligned and strictly earlier than `now` —
historical points whose aligned timestamp is not strictly less than `now`
are discarded. -/
theorem backfill_rows_before_now (now : Nat) (price : ℚ)
    (store : Option (List Sample)) (hist : List Sample) :
    (tickRows now price store hist).getLast? = some ⟨now, price⟩ ∧
    ∀ r ∈ (tickRows now price store hist).dropLast,
      r.ts < now ∧ alignMinute r.ts = r.ts := by
  rw [tickRows]
  by_cases hskew : now < get_last_timestamp now store + 60
  · rw [if_pos hskew]
    exact ⟨rfl, by simp⟩
  · rw [if_neg hskew]
    constructor
    · exact List.getLast?_concat _
    · rw [List.dropLast_concat]
      intro r hr
      by_cases hgap : get_last_timestamp now store + 60 < now
      · rw [if_pos hgap] at hr
        have hfil := List.mem_filter.1 hr
        rcases List.mem_map.1 hfil.1 with ⟨s, _, rfl⟩
        refine ⟨by simpa using hfil.2, ?_⟩
        exact alignMinute_idem s.ts
      · rw [if_neg hgap] at hr
        simp at hr

/-! ## Moving-average crossover (`MovingAverageStrategy`) -/

/-- A per-row trading signal. -/
inductive Signal
  | BUY
  | SELL
  | HOLD
deriving DecidableEq, Repr

/-- pandas `rolling(window=w).mean()` at index `i`: `NaN` (here `none`) while
fewer than `w` observations exist, else the arithmetic mean of
`prices[i-w+1 .. i]`. -/
def rollingMean (w : Nat) (prices : List ℚ) (i : Nat) : Option ℚ :=
  if i + 1 < w then none
  else some ((((prices.take (i + 1)).drop (i + 1 - w)).sum) / w)

/-- Float `<` where a `NaN` (absent moving average) operand compares false,
as in numpy/pandas. -/
def oltB : Option ℚ → Option ℚ → Bool
  | some a, some b => a < b
  | _, _ => false

/-- Float `>` with the same `NaN` semantics. -/
def ogtB (x y : Option ℚ) : Bool := oltB y x

/-- The index the source reads the "previous" row from: Python `iloc[i-1]`,
which at `i = 0` wraps to the *last* row (negative indexing). -/
def prevIdx (n i : Nat) : Nat := if i = 0 then n - 1 else i - 1

/-- One iteration of `MovingAverageStrategy.generate_signals`: BUY on an
upward cross of the short over the long moving average, SELL on a downward
cross, HOLD otherwise. -/
def signalAt (sw lw : Nat) (prices : List ℚ) (i : Nat) : Signal :=
  if oltB (rollingMean sw prices (prevIdx prices.length i))
        (rollingMean lw prices (prevIdx prices.length i))
      && ogtB (rollingMean sw prices i) (rollingMean lw prices i) then .BUY
  else if ogtB (rollingMean sw prices (prevIdx prices.length i))
        (rollingMean lw prices (prevIdx prices.length i))
      && oltB (rollingMean sw prices i) (rollingMean lw prices i) then .SELL
  else .HOLD

/-- Source `MovingAverageStrategy.generate_signals` over a price series. -/
def generate_signals (sw lw : Nat) (prices : List ℚ) : List Signal :=
  (List.range prices.length).map (signalAt sw lw prices)

theorem oltB_none_left (y : Option ℚ) : oltB none y = false := by
  cases y <;> rfl

theorem oltB_none_right (x : Option ℚ) : oltB x none = false := by
  cases x <;> rfl

theorem rollingMean_eq_none (w : Nat) (prices : List ℚ) (i : Nat) :
    rollingMean w prices i = none ↔ i + 1 < w := by
  rw [rollingMean]
  by_cases h : i + 1 < w <;> simp [h]

theorem signalAt_hold_of_flat (sw lw : Nat) (prices : List ℚ) (i : Nat)
    (h1 : ogtB (rollingMean sw prices i) (rollingMean lw prices i) = false)
    (h2 : oltB (rollingMean sw prices i) (rollingMean lw prices i) = false) :
    signalAt sw lw prices i = Signal.HOLD := by
  rw [signalAt, h1, h2]
  simp

theorem flat_of_absent (x y : Option ℚ) (h : x = none ∨ y = none) :
    ogtB x y = false ∧ oltB x y = false := by
  rcases h with rfl | rfl
  · exact ⟨oltB_none_right y, oltB_none_left y⟩
  · exact ⟨oltB_none_left x, oltB_none_right x⟩

/-- C4: with valid windows (`≥ 1`, as required by pandas `rolling`), the
signal of the very first row is `HOLD`; every row whose short or long moving
average is absent gets `HOLD`; and the absent rows are exactly the first
`max(shortWindow, longWindow) - 1` rows. -/
theorem crossover_first_and_absent_rows_hold (sw lw : Nat) (prices : List ℚ)
    (hsw : 1 ≤ sw) (hlw : 1 ≤ lw) :
    (prices ≠ [] → (generate_signals sw lw prices).head? = some Signal.HOLD) ∧
    (∀ i, rollingMean sw prices i = none ∨ rollingMean lw prices i = none →
      signalAt sw lw prices i = Signal.HOLD) ∧
    (∀ i, (rollingMean sw prices i = none ∨ rollingMean lw prices i = none)
      ↔ i + 1 < max sw lw) := by
  have habsent : ∀ i, rollingMean sw prices i = none ∨ rollingMean lw prices i = none →
      signalAt sw lw prices i = Signal.HOLD := by
    intro i h
    rcases flat_of_absent _ _ h with ⟨h1, h2⟩
    exact signalAt_hold_of_flat sw lw prices i h1 h2
  have hzero : signalAt sw lw prices 0 = Signal.HOLD := by
    rcases Nat.lt_or_ge 1 sw with hsw2 | hsw2
    · exact habsent 0 (Or.inl ((rollingMean_eq_none _ _ _).2 (by omega)))
    · rcases Nat.lt_or_ge 1 lw with hlw2 | hlw2
      · exact habsent 0 (Or.inr ((rollingMean_eq_none _ _ _).2 (by omega)))
      · have hsw1 : sw = 1 := by omega
        have hlw1 : lw = 1 := by omega
        subst hsw1
        subst hlw1
        refine signalAt_hold_of_flat 1 1 prices 0 ?_ ?_ <;>
          · rw [rollingMean, if_neg (by omega)]
            simp [ogtB, oltB]
  refine ⟨?_, habsent, ?_⟩
  · intro hne
    have hlen : 0 < prices.length := List.length_pos.2 hne
    rw [generate_signals, List.head?_eq_getElem?, List.getElem?_map]
    rw [List.getElem?_range hlen]
    rw [Option.map, hzero]
  · intro i
    rw [rollingMean_eq_none, rollingMean_eq_none]
    omega

/-- Witness for C4 at windows `1, 1` over the one-point series `[1]`. -/
theorem crossover_first_and_absent_rows_hold_witness :
    (1 ≤ 1 ∧ 1 ≤ 1) ∧
    ((([1] : List ℚ) ≠ [] → (generate_signals 1 1 [1]).head? = some Signal.HOLD) ∧
      (∀ i, rollingMean 1 [1] i = none ∨ rollingMean 1 [1] i = none →
        signalAt 1 1 [1] i = Signal.HOLD) ∧
      (∀ i, (rollingMean 1 [1] i = none ∨ rollingMean 1 [1] i = none)
        ↔ i + 1 < max 1 1)) :=
  ⟨⟨le_rfl, le_rfl⟩, crossover_first_and_absent_rows_hold 1 1 [1] le_rfl le_rfl⟩

/-! ## Backtester (`src/modules/backtester.py`) -/

/-- One row of the annotated series the backtester replays. -/
structure Row where
  price : ℚ
  signal : Signal
deriving DecidableEq, Repr

/-- The `Backtester` object: the constructor argument plus the mutable
fields `position`, `cash` and `portfolio_value`, which live on the instance
and persist across calls. -/
structure Backtester where
  initial_capital : ℚ
  position : ℚ
  cash : ℚ
  portfolio_value : List ℚ
deriving DecidableEq, Repr

/-- Source `Backtester.__init__(initial_capital)`. -/
def Backtester.init (cap : ℚ) : Backtester :=
  { initial_capital := cap, position := 0, cash := cap, portfolio_value := [] }

/-- One iteration of the `run_backtest` loop: trade on BUY (when flat) or
SELL (when long), then append `cash + position * price` to the trace. -/
def stepRow (bt : Backtester) (row : Row) : Backtester :=
  let bt1 :=
    if row.signal = Signal.BUY ∧ bt.position = 0 then
      { bt with position := 1, cash := bt.cash - row.price }
    else if row.signal = Signal.SELL ∧ bt.position = 1 then
      { bt with position := 0, cash := bt.cash + row.price }
    else bt
  { bt1 with
    portfolio_value := bt1.portfolio_value ++ [bt1.cash + bt1.position * row.price] }

/-- The scan loop of `calculate_max_drawdown`; `none` models the
ZeroDivisionError raised when the running peak is 0. -/
def mddLoop (peak maxdd : ℚ) : List ℚ → Option ℚ
  | [] => some maxdd
  | v :: rest =>
      let peak1 := if peak < v then v else peak
      if peak1 = 0 then none
      else
        mddLoop peak1
          (if maxdd < (peak1 - v) / peak1 then (peak1 - v) / peak1 else maxdd) rest

/-- Source `calculate_max_drawdown`; `none` models the IndexError of
`portfolio_value[0]` on an empty trace. -/
def calculate_max_drawdown (trace : List ℚ) : Option ℚ :=
  match trace with
  | [] => none
  | v :: rest => mddLoop v 0 (v :: rest)

/-- The win counter of `calculate_win_rate`: rows whose signal is BUY
immediately after a row whose signal is SELL. -/
def winsCount : List Signal → Nat
  | a :: b :: rest =>
      (if a = Signal.SELL ∧ b = Signal.BUY then 1 else 0) + winsCount (b :: rest)
  | _ => 0

/-- Source `calculate_win_rate`; `none` models the ZeroDivisionError of
`wins / total` on an empty series. -/
def calculate_win_rate (df : List Row) : Option ℚ :=
  if df.length = 0 then none
  else some ((winsCount (df.map Row.signal) : ℚ) / (df.length : ℚ))

/-- The summary statistics dict returned by `calculate_performance`. -/
structure Stats where
  total_return : ℚ
  final_value : ℚ
  max_drawdown : ℚ
  win_rate : ℚ
deriving DecidableEq, Repr

/-- Source `calculate_performance`; `none` models the IndexError raised by
`self.portfolio_value[-1]` on an empty trace, and the ZeroDivisionErrors of
the `total_return` formula (zero initial capital), `calculate_max_drawdown`
and `calculate_win_rate`. -/
def calculate_performance (bt : Backtester) (df : List Row) : Option Stats :=
  (bt.portfolio_value.getLast?).bind fun fv =>
    if bt.initial_capital = 0 then none
    else
      (calculate_max_drawdown bt.portfolio_value).bind fun mdd =>
        (calculate_win_rate df).map fun wr =>
          { total_return := (fv - bt.initial_capital) / bt.initial_capital * 100,
            final_value := fv, max_drawdown := mdd, win_rate := wr }

/-- Source `run_backtest`: replay the rows, mutating the instance state, then
compute the performance statistics from the (accumulated) trace. -/
def run_backtest (bt : Backtester) (df : List Row) : Backtester × Option Stats :=
  let bt1 := df.foldl stepRow bt
  (bt1, calculate_performance bt1 df)

/-- C5: given an empty annotated series, the backtester does *not* signal a
designated EmptySeries condition: `calculate_performance` evaluates
`portfolio_value[-1]` on the empty trace, an uncaught IndexError, modelled
here by `none`. -/
theorem empty_series_raises (cap : ℚ) :
    run_backtest (Backtester.init cap) [] = (Backtester.init cap, none) := rfl

/-- Modelled from the spec (§4.4): one row of the pure long/flat replay,
threading `(cash, position)`. -/
def specStep (s : ℚ × ℚ) (r : Row) : ℚ × ℚ :=
  if r.signal = Signal.BUY ∧ s.2 = 0 then (s.1 - r.price, 1)
  else if r.signal = Signal.SELL ∧ s.2 = 1 then (s.1 + r.price, 0)
  else s

/-- Modelled from the spec (§4.4): the backtest replay as a pure function —
from a `(cash, position)` state, process each row and record
`cash + position * price`, returning the final state and the trace. -/
def specReplay (s : ℚ × ℚ) : List Row → (ℚ × ℚ) × List ℚ
  | [] => (s, [])
  | r :: rest =>
      let s1 := specStep s r
      let out := specReplay s1 rest
      (out.1, (s1.1 + s1.2 * r.price) :: out.2)

theorem foldl_stepRow_spec : ∀ (df : List Row) (bt : Backtester),
    df.foldl stepRow bt =
      { initial_capital := bt.initial_capital,
        position := (specReplay (bt.cash, bt.position) df).1.2,
        cash := (specReplay (bt.cash, bt.position) df).1.1,
        portfolio_value :=
          bt.portfolio_value ++ (specReplay (bt.cash, bt.position) df).2 }
  | [], bt => by simp [specReplay]
  | r :: rest, bt => by
      rw [List.foldl_cons, foldl_stepRow_spec rest, specReplay]
      by_cases hbuy : r.signal = Signal.BUY ∧ bt.position = 0
      · simp [stepRow, specStep, if_pos hbuy]
      · by_cases hsell : r.signal = Signal.SELL ∧ bt.position = 1
        · simp [stepRow, specStep, if_neg hbuy, if_pos hsell]
        · simp [stepRow, specStep, if_neg hbuy, if_neg hsell]

/-- C7 (amended): the backtest is a pure function of
`(annotatedSeries, initialCapital)` provided each run starts from a freshly
constructed `Backtester`: a fresh-instance run computes exactly the spec's
pure replay of `(df, cap)`, and its statistics are determined by it.  A
reused instance carries `cash`, `position` and the trace into the next run,
which can change the result — see the rerun counterexample. -/
theorem backtest_pure_of_fresh (cap : ℚ) (df : List Row) :
    (run_backtest (Backtester.init cap) df).1 =
      { initial_capital := cap,
        position := (specReplay (cap, 0) df).1.2,
        cash := (specReplay (cap, 0) df).1.1,
        portfolio_value := (specReplay (cap, 0) df).2 } ∧
    (run_backtest (Backtester.init cap) df).2 =
      calculate_performance
        { initial_capital := cap,
          position := (specReplay (cap, 0) df).1.2,
          cash := (specReplay (cap, 0) df).1.1,
          portfolio_value := (specReplay (cap, 0) df).2 } df := by
  have h1 : (run_backtest (Backtester.init cap) df).1
      = df.foldl stepRow (Backtester.init cap) := rfl
  have h2 : (run_backtest (Backtester.init cap) df).2
      = calculate_performance (df.foldl stepRow (Backtester.init cap)) df := rfl
  rw [h1, h2, foldl_stepRow_spec df (Backtester.init cap)]
  exact ⟨rfl, rfl⟩

/-- C7 counterexample: replaying the same two-row series twice on the same
`Backtester` instance reports different statistics the second time (the
carried position and trace change `max_drawdown` from 0 to 1/11), so the
result is not independent of state carried from a previous run. -/
theorem backtest_rerun_differs :
    (run_backtest
        ((run_backtest (Backtester.init 1000)
          [⟨100, Signal.BUY⟩, ⟨200, Signal.HOLD⟩]).1)
        [⟨100, Signal.BUY⟩, ⟨200, Signal.HOLD⟩]).2
      ≠ (run_backtest (Backtester.init 1000)
          [⟨100, Signal.BUY⟩, ⟨200, Signal.HOLD⟩]).2 := by
  have hb1 : List.foldl stepRow (Backtester.init 1000)
        [⟨100, Signal.BUY⟩, ⟨200, Signal.HOLD⟩]
      = (⟨1000, 1, 900, [1000, 1100]⟩ : Backtester) := by
    simp [stepRow, Backtester.init]
    norm_num
  have hb2 : List.foldl stepRow (⟨1000, 1, 900, [1000, 1100]⟩ : Backtester)
        [⟨100, Signal.BUY⟩, ⟨200, Signal.HOLD⟩]
      = (⟨1000, 1, 900, [1000, 1100, 1000, 1100]⟩ : Backtester) := by
    simp [stepRow]
    norm_num
  have hm1 : calculate_max_drawdown [1000, 1100] = some 0 := by
    norm_num [calculate_max_drawdown, mddLoop]
  have hm2 : calculate_max_drawdown [1000, 1100, 1000, 1100] = some (1 / 11) := by
    norm_num [calculate_max_drawdown, mddLoop]
  have hw : calculate_win_rate [⟨100, Signal.BUY⟩, ⟨200, Signal.HOLD⟩] = some 0 := by
    simp [calculate_win_rate, winsCount]
  have hp1 : (run_backtest (Backtester.init 1000)
        [⟨100, Signal.BUY⟩, ⟨200, Signal.HOLD⟩]).2
      = some ⟨10, 1100, 0, 0⟩ := by
    have hr : (run_backtest (Backtester.init 1000)
          [⟨100, Signal.BUY⟩, ⟨200, Signal.HOLD⟩]).2
        = calculate_performance
            (List.foldl stepRow (Backtester.init 1000)
              [⟨100, Signal.BUY⟩, ⟨200, Signal.HOLD⟩])
            [⟨100, Signal.BUY⟩, ⟨200, Signal.HOLD⟩] := rfl
    rw [hr, hb1]
    norm_num [calculate_performance, hm1, hw]
  have hp2 : (run_backtest
        ((run_backtest (Backtester.init 1000)
          [⟨100, Signal.BUY⟩, ⟨200, Signal.HOLD⟩]).1)
        [⟨100, Signal.BUY⟩, ⟨200, Signal.HOLD⟩]).2
      = some ⟨10, 1100, 1 / 11, 0⟩ := by
    have hfst : (run_backtest (Backtester.init 1000)
          [⟨100, Signal.BUY⟩, ⟨200, Signal.HOLD⟩]).1
        = List.foldl stepRow (Backtester.init 1000)
            [⟨100, Signal.BUY⟩, ⟨200, Signal.HOLD⟩] := rfl
    have hr : (run_backtest
          ((run_backtest (Backtester.init 1000)
            [⟨100, Signal.BUY⟩, ⟨200, Signal.HOLD⟩]).1)
          [⟨100, Signal.BUY⟩, ⟨200, Signal.HOLD⟩]).2
        = calculate_performance
            (List.foldl stepRow
              ((run_backtest (Backtester.init 1000)
                [⟨100, Signal.BUY⟩, ⟨200, Signal.HOLD⟩]).1)
              [⟨100, Signal.BUY⟩, ⟨200, Signal.HOLD⟩])
            [⟨100, Signal.BUY⟩, ⟨200, Signal.HOLD⟩] := rfl
    rw [hr, hfst, hb1, hb2]
    norm_num [calculate_performance, hm2, hw]
  rw [hp1, hp2]
  simp only [ne_eq, Option.some.injEq, Stats.mk.injEq, not_and]
  intro _ _ h _
  norm_num at h

/-- Modelled from the spec: the running-peak drawdown sequence — at each
point the drawdown is `(peak - value) / peak` against the running peak. -/
def specDrawdowns (peak : ℚ) : List ℚ → List ℚ
  | [] => []
  | v :: rest => ((max peak v - v) / max peak v) :: specDrawdowns (max peak v) rest

/-- Modelled from the spec: `maxDrawdown` — the maximum over the trace of
the running-peak drawdowns (0 being the scan's starting accumulator). -/
def specMaxDrawdown : List ℚ → ℚ
  | [] => 0
  | v :: rest => (specDrawdowns v (v :: rest)).foldl max 0

theorem ite_lt_max (a b : ℚ) : (if a < b then b else a) = max a b := by
  rcases le_or_lt b a with h | h
  · rw [if_neg (not_lt.2 h), max_eq_left h]
  · rw [if_pos h, max_eq_right (le_of_lt h)]

theorem mddLoop_eq_foldl : ∀ (l : List ℚ) (peak maxdd : ℚ), 0 < peak →
    (∀ v ∈ l, 0 < v) →
    mddLoop peak maxdd l = some ((specDrawdowns peak l).foldl max maxdd)
  | [], _, _, _, _ => rfl
  | v :: rest, peak, maxdd, hp, hv => by
      have hp1 : 0 < max peak v := lt_max_iff.2 (Or.inl hp)
      simp only [mddLoop, specDrawdowns, List.foldl_cons]
      rw [ite_lt_max, if_neg (ne_of_gt hp1), ite_lt_max,
        mddLoop_eq_foldl rest (max peak v) _ hp1
          (fun x hx => hv x (List.mem_cons_of_mem _ hx))]

theorem le_foldl_max : ∀ (l : List ℚ) (b : ℚ), b ≤ l.foldl max b
  | [], _ => le_rfl
  | v :: rest, b => le_trans (le_max_left b v) (le_foldl_max rest (max b v))

theorem foldl_max_le : ∀ (l : List ℚ) (b c : ℚ), b ≤ c → (∀ x ∈ l, x ≤ c) →
    l.foldl max b ≤ c
  | [], _, _, hb, _ => hb
  | v :: rest, b, c, hb, hl =>
      foldl_max_le rest (max b v) c (max_le hb (hl v (List.mem_cons_self _ _)))
        (fun x hx => hl x (List.mem_cons_of_mem _ hx))

theorem specDrawdowns_le_one : ∀ (l : List ℚ) (peak : ℚ), 0 < peak →
    (∀ v ∈ l, 0 < v) → ∀ d ∈ specDrawdowns peak l, d ≤ 1
  | [], _, _, _ => by simp [specDrawdowns]
  | v :: rest, peak, hp, hv => by
      intro d hd
      rw [specDrawdowns] at hd
      have hp1 : 0 < max peak v := lt_max_iff.2 (Or.inl hp)
      rcases List.mem_cons.1 hd with rfl | hd2
      · rw [div_le_one hp1]
        have hv0 : 0 < v := hv v (List.mem_cons_self _ _)
        linarith
      · exact specDrawdowns_le_one rest (max peak v) hp1
          (fun x hx => hv x (List.mem_cons_of_mem _ hx)) d hd2

/-- C8 (amended): over a nonempty trace of positive portfolio values,
`calculate_max_drawdown` reports exactly the maximum over the trace of
`(peak - value) / peak` against the running peak, and that figure lies in
`[0, 1]`.  (Positivity is needed: portfolio values can go negative, driving
the figure above 1 — see the counterexample.) -/
theorem max_drawdown_eq_running_peak_spec (trace : List ℚ)
    (hne : trace ≠ []) (hpos : ∀ v ∈ trace, 0 < v) :
    calculate_max_drawdown trace = some (specMaxDrawdown trace) ∧
    0 ≤ specMaxDrawdown trace ∧ specMaxDrawdown trace ≤ 1 := by
  obtain ⟨v, rest, rfl⟩ := List.exists_cons_of_ne_nil hne
  have hv : 0 < v := hpos v (List.mem_cons_self _ _)
  refine ⟨?_, ?_, ?_⟩
  · rw [calculate_max_drawdown, specMaxDrawdown]
    exact mddLoop_eq_foldl (v :: rest) v 0 hv hpos
  · rw [specMaxDrawdown]
    exact le_foldl_max _ 0
  · rw [specMaxDrawdown]
    exact foldl_max_le _ 0 1 (by norm_num)
      (specDrawdowns_le_one (v :: rest) v hv hpos)

/-- Witness for C8 (amended) on the spec's own example trace,
`[100, 95, 90, 85, 90, 95, 100]`. -/
theorem max_drawdown_eq_running_peak_spec_witness :
    (([100, 95, 90, 85, 90, 95, 100] : List ℚ) ≠ [] ∧
      ∀ v ∈ ([100, 95, 90, 85, 90, 95, 100] : List ℚ), 0 < v) ∧
    (calculate_max_drawdown [100, 95, 90, 85, 90, 95, 100]
        = some (specMaxDrawdown [100, 95, 90, 85, 90, 95, 100]) ∧
      0 ≤ specMaxDrawdown [100, 95, 90, 85, 90, 95, 100] ∧
      specMaxDrawdown [100, 95, 90, 85, 90, 95, 100] ≤ 1) :=
  ⟨⟨by simp, by norm_num⟩,
    max_drawdown_eq_running_peak_spec _ (by simp) (by norm_num)⟩

/-- C8 counterexample: buying at 100 with capital 10 leaves cash −90, so the
next row (price 50) values the portfolio at −40; the reported max drawdown
is (10 − (−40)) / 10 = 5, outside `[0, 1]`. -/
theorem max_drawdown_above_one :
    Option.map Stats.max_drawdown
        (run_backtest (Backtester.init 10)
          [⟨100, Signal.BUY⟩, ⟨50, Signal.HOLD⟩]).2
      = some 5 ∧ ¬ ((5 : ℚ) ≤ 1) := by
  constructor
  · have hb : List.foldl stepRow (Backtester.init 10)
          [⟨100, Signal.BUY⟩, ⟨50, Signal.HOLD⟩]
        = (⟨10, 1, -90, [10, -40]⟩ : Backtester) := by
      simp [stepRow, Backtester.init]
      norm_num
    have hm : calculate_max_drawdown [10, -40] = some 5 := by
      norm_num [calculate_max_drawdown, mddLoop]
    have hw2 : calculate_win_rate [⟨100, Signal.BUY⟩, ⟨50, Signal.HOLD⟩]
        = some 0 := by
      simp [calculate_win_rate, winsCount]
    have hr : (run_backtest (Backtester.init 10)
          [⟨100, Signal.BUY⟩, ⟨50, Signal.HOLD⟩]).2
        = calculate_performance
            (List.foldl stepRow (Backtester.init 10)
              [⟨100, Signal.BUY⟩, ⟨50, Signal.HOLD⟩])
            [⟨100, Signal.BUY⟩, ⟨50, Signal.HOLD⟩] := rfl
    rw [hr, hb]
    norm_num [calculate_performance, hm, hw2]
  · norm_num

theorem getLast?_cons_of_ne_nil {α : Type _} (a : α) :
    ∀ {l : List α}, l ≠ [] → (a :: l).getLast? = l.getLast?
  | [], h => absurd rfl h
  | _ :: _, _ => List.getLast?_cons_cons

theorem specReplay_trace_length : ∀ (df : List Row) (s : ℚ × ℚ),
    ((specReplay s df).2).length = df.length
  | [], _ => rfl
  | r :: rest, s => by
      simp only [specReplay, List.length_cons]
      rw [specReplay_trace_length rest (specStep s r)]

theorem specReplay_trace_getLast : ∀ (df : List Row) (s : ℚ × ℚ) (r : Row),
    df.getLast? = some r →
    ((specReplay s df).2).getLast?
      = some ((specReplay s df).1.1 + (specReplay s df).1.2 * r.price)
  | [], _, _, h => by simp at h
  | [r0], s, r, h => by
      have hr : r = r0 := by
        rw [List.getLast?_singleton] at h
        exact (Option.some.inj h).symm
      subst hr
      simp [specReplay]
  | r0 :: r1 :: rest, s, r, h => by
      rw [List.getLast?_cons_cons] at h
      have hne2 : (specReplay (specStep s r0) (r1 :: rest)).2 ≠ [] := by
        intro hc
        have hlen := specReplay_trace_length (r1 :: rest) (specStep s r0)
        rw [hc] at hlen
        simp at hlen
      show (((specStep s r0).1 + (specStep s r0).2 * r0.price)
          :: (specReplay (specStep s r0) (r1 :: rest)).2).getLast?
        = some ((specReplay (specStep s r0) (r1 :: rest)).1.1
            + (specReplay (specStep s r0) (r1 :: rest)).1.2 * r.price)
      rw [getLast?_cons_of_ne_nil _ hne2,
        specReplay_trace_getLast (r1 :: rest) (specStep s r0) r h]

theorem performance_final_value (bt : Backtester) (df : List Row) (s : Stats)
    (h : calculate_performance bt df = some s) :
    bt.portfolio_value.getLast? = some s.final_value := by
  rw [calculate_performance] at h
  cases hl : bt.portfolio_value.getLast? with
  | none =>
      rw [hl] at h
      simp at h
  | some fv =>
      rw [hl, Option.some_bind] at h
      by_cases hic : bt.initial_capital = 0
      · rw [if_pos hic] at h
        simp at h
      · rw [if_neg hic] at h
        cases hm : calculate_max_drawdown bt.portfolio_value with
        | none =>
            rw [hm] at h
            simp at h
        | some mdd =>
            rw [hm, Option.some_bind] at h
            cases hw : calculate_win_rate df with
            | none =>
                rw [hw] at h
                simp at h
            | some wr =>
                rw [hw, Option.map_some'] at h
                have hs2 := Option.some.inj h
                rw [← hs2]

/-- C10: a backtest over a non-empty annotated series appends exactly one
portfolio value per input row; the last trace entry equals final
`cash + position * (last row's price)` — an open position is valued at the
last price, not dropped — and whenever statistics are reported their
`final_value` is exactly that last trace entry. -/
theorem final_value_is_last_trace_entry (cap : ℚ) (df : List Row) (r : Row)
    (h : df.getLast? = some r) :
    ((run_backtest (Backtester.init cap) df).1.portfolio_value).length
      = df.length ∧
    ((run_backtest (Backtester.init cap) df).1.portfolio_value).getLast?
      = some ((run_backtest (Backtester.init cap) df).1.cash
          + (run_backtest (Backtester.init cap) df).1.position * r.price) ∧
    ∀ s, (run_backtest (Backtester.init cap) df).2 = some s →
      s.final_value = (run_backtest (Backtester.init cap) df).1.cash
          + (run_backtest (Backtester.init cap) df).1.position * r.price := by
  have hfold : (run_backtest (Backtester.init cap) df).1
      = df.foldl stepRow (Backtester.init cap) := rfl
  have hspec := foldl_stepRow_spec df (Backtester.init cap)
  have hcash : (df.foldl stepRow (Backtester.init cap)).cash
      = (specReplay (cap, 0) df).1.1 := by
    rw [hspec]
    rfl
  have hpos : (df.foldl stepRow (Backtester.init cap)).position
      = (specReplay (cap, 0) df).1.2 := by
    rw [hspec]
    rfl
  have htrace : (df.foldl stepRow (Backtester.init cap)).portfolio_value
      = (specReplay (cap, 0) df).2 := by
    rw [hspec]
    simp [Backtester.init]
  refine ⟨?_, ?_, ?_⟩
  · rw [hfold, htrace, specReplay_trace_length]
  · rw [hfold, htrace, hcash, hpos, specReplay_trace_getLast df (cap, 0) r h]
  · intro s hs
    have hperf : calculate_performance (df.foldl stepRow (Backtester.init cap)) df
        = some s := hs
    have hlast := performance_final_value _ _ _ hperf
    rw [htrace, specReplay_trace_getLast df (cap, 0) r h] at hlast
    rw [hfold, hcash, hpos]
    exact (Option.some.inj hlast).symm

/-- Witness for C10 on the one-row series `[(100, HOLD)]` with capital 7. -/
theorem final_value_is_last_trace_entry_witness :
    (([⟨100, Signal.HOLD⟩] : List Row).getLast?
      = some (⟨100, Signal.HOLD⟩ : Row)) ∧
    (((run_backtest (Backtester.init 7) [⟨100, Signal.HOLD⟩]).1.portfolio_value).length
        = ([⟨100, Signal.HOLD⟩] : List Row).length ∧
      ((run_backtest (Backtester.init 7) [⟨100, Signal.HOLD⟩]).1.portfolio_value).getLast?
        = some ((run_backtest (Backtester.init 7) [⟨100, Signal.HOLD⟩]).1.cash
            + (run_backtest (Backtester.init 7) [⟨100, Signal.HOLD⟩]).1.position
              * (⟨100, Signal.HOLD⟩ : Row).price) ∧
      ∀ s, (run_backtest (Backtester.init 7) [⟨100, Signal.HOLD⟩]).2 = some s →
        s.final_value = (run_backtest (Backtester.init 7) [⟨100, Signal.HOLD⟩]).1.cash
            + (run_backtest (Backtester.init 7) [⟨100, Signal.HOLD⟩]).1.position
              * (⟨100, Signal.HOLD⟩ : Row).price) :=
  ⟨rfl, final_value_is_last_trace_entry 7 [⟨100, Signal.HOLD⟩] ⟨100, Signal.HOLD⟩ rfl⟩

end TradingBot
